import Mathlib

/-
Verification of the qudy control-waveform library (control.py and
error_models/detuning.py) against its natural-language specification.
All numeric data is modelled over the rationals; the waveform record
mirrors the attributes of the python control class.
-/

deriving instance DecidableEq for Except

namespace Qudy

/-- A waveform, mirroring the python control class: control holds n rows
of k component values, times holds the n sample times, number_controls
is k, interpolation is the stored default policy, verbose the flag. -/
structure Waveform where
  control : List (List ℚ)
  times : List ℚ
  number_controls : ℕ
  interpolation : String
  verbose : Bool
deriving DecidableEq, Repr

/-- Source: control.py line 186, the list of recognized policy names. -/
def valid_inputs : List String := ["latest", "nearest", "linear"]

/-- Source: control.py line 177, the check all(diff(times) > 0): every
consecutive difference of the time vector is strictly positive. -/
def timeOrdered (times : List ℚ) : Bool :=
  (List.zipWith (fun a b => b - a) times times.tail).all (fun d => decide (0 < d))

/-- Source: control.py lines 253-257, timemin returns min(self.times). -/
def timemin (w : Waveform) : ℚ := (w.times.min?).getD 0

/-- Source: control.py lines 260-264, timemax returns max(self.times). -/
def timemax (w : Waveform) : ℚ := (w.times.max?).getD 0

/-- Source: control.py lines 183-199, parsing of the interpolation
keyword: a recognized name is stored as given, an unrecognized name is
replaced by latest together with a warning (the Bool records whether the
warning was emitted), an absent keyword defaults to latest silently. -/
def parse_interp : Option String → String × Bool
  | none => ("latest", false)
  | some s => if s ∈ valid_inputs then (s, false) else ("latest", true)

def errDimension : String := "Dimension mismatch."
def errTimeOrder : String := "Time array is not time-ordered."
def errInterval : String := "Interpolation time must lie within the interval."
def errMethod : String := "Interpolation method not recognized."
def errFormat : String := "Format not recognized."
def errIndex : String := "IndexError"

/-- Source: control.py lines 91-213, the multi-argument constructor path
specialized to one already-assembled (n,k) value matrix plus a time
vector, the form used by every in-repo caller that passes arrays.  The
per-argument length check (line 131) precedes the time-ordering check
(line 177); the interpolation keyword is parsed per lines 183-199.  The
second component of the result records whether the fallback warning was
emitted. -/
def control_init (arr : List (List ℚ)) (times : List ℚ)
    (interpOpt : Option String) : Except String (Waveform × Bool) :=
  if arr.length = times.length then
    if timeOrdered times then
      let p := parse_interp interpOpt
      .ok ({ control := arr, times := times,
             number_controls := (arr.headD []).length,
             interpolation := p.1, verbose := false }, p.2)
    else .error errTimeOrder
  else .error errDimension

/-- Source: control.py lines 150-178, the single-argument constructor
path: the last column of the matrix is the time vector, the remaining
columns are the control values; the time-ordering check follows.  No
keywords are passed on this path by load, so the policy defaults to
latest. -/
def control_init_matrix (ARR : List (List ℚ)) : Except String Waveform :=
  let k := (ARR.headD []).length - 1
  let times := ARR.map (fun row => row.getD k 0)
  let ctrl := ARR.map (fun row => row.take k)
  if timeOrdered times then
    .ok { control := ctrl, times := times, number_controls := k,
          interpolation := "latest", verbose := false }
  else .error errTimeOrder

/-- Source: numpy.interp restricted to a two-point table, as called at
control.py line 419: queries at or below the first abscissa return the
first ordinate, queries at or above the second return the second, and
strictly interior queries are linearly interpolated. -/
def np_interp (x x0 x1 y0 y1 : ℚ) : ℚ :=
  if x ≤ x0 then y0
  else if x1 ≤ x then y1
  else y0 + (x - x0) * (y1 - y0) / (x1 - x0)

/-- Source: control.py lines 326-425.  The policy argument models the
python default None resolving to the stored policy.  t_low is the
largest sample time strictly below the query (falling back to timemin
when there is none), t_high the smallest strictly above (falling back
to timemax), and the two indices are found by first occurrence as
list.index does. -/
def interpolate (w : Waveform) (time : ℚ) (interpOpt : Option String) :
    Except String (List ℚ) :=
  let ip := interpOpt.getD w.interpolation
  if time < timemin w ∨ timemax w < time then .error errInterval
  else
    let t_low := ((w.times.filter (fun t => decide (t - time < 0))).max?).getD (timemin w)
    let t_high := ((w.times.filter (fun t => decide (0 < t - time))).min?).getD (timemax w)
    let index_low := w.times.findIdx (fun t => decide (t = t_low))
    let index_high := w.times.findIdx (fun t => decide (t = t_high))
    if ip = "latest" then .ok (w.control.getD index_low [])
    else if ip = "nearest" then
      if time - t_low ≤ t_high - time then .ok (w.control.getD index_low [])
      else .ok (w.control.getD index_high [])
    else if ip = "linear" then
      .ok ((List.range w.number_controls).map (fun j =>
        np_interp time t_low t_high
          ((w.control.getD index_low []).getD j 0)
          ((w.control.getD index_high []).getD j 0)))
    else .error errMethod

/-- A three-sample one-component waveform with a spike at the middle
knot, used below to probe the handling of queries landing on a knot. -/
def wSpike : Waveform :=
  { control := [[0],[5],[0]], times := [0,1,2], number_controls := 1,
    interpolation := "latest", verbose := false }

/-- Source: control.py lines 228-243.  Calling a waveform with one
argument interpolates the full vector, with two arguments additionally
selects one component; any other arity falls off the end of the python
function body and implicitly returns None, modelled by the outer none.
The component index, a python number, is truncated to a natural number,
and an out-of-range index is modelled by the inner option. -/
def wf_call (w : Waveform) (args : List ℚ) :
    Option (Except String (List ℚ ⊕ Option ℚ)) :=
  match args with
  | [t] => some ((interpolate w t none).map Sum.inl)
  | [index, t] =>
      some ((interpolate w t none).map (fun v => Sum.inr (v.get? index.floor.toNat)))
  | _ => none

/-- Source: control.py lines 267-278 and 306-323.  The copy constructs
an independent control with the same data, then inverse flips the row
order of the value matrix and negates every entry, and replaces the
time vector by timemax minus the flipped time vector.  The copy step
revalidates the time ordering, which always succeeds for a waveform
satisfying the construction invariant, so it is elided here. -/
def inverse (w : Waveform) : Waveform :=
  { w with
    control := (w.control.reverse).map (List.map (fun x => -x)),
    times := (w.times.reverse).map (fun t => timemax w - t) }

/-- Source: numpy.linalg.norm of a row of k components, as called at
control.py line 300: the square root of the sum of the squares. -/
noncomputable def vnorm (v : List ℚ) : ℝ :=
  Real.sqrt ((v.map (fun x : ℚ => ((x : ℝ)) ^ 2)).sum)

/-- Source: control.py lines 281-303.  The loop over timesteps sums the
norm of the control row at the earlier index of each consecutive pair of
sample times, weighted by the duration of the interval. -/
noncomputable def arc_length (w : Waveform) : ℝ :=
  ∑ ts ∈ Finset.range (w.times.length - 1),
    vnorm (w.control.getD ts []) *
      ((w.times.getD (ts + 1) 0 - w.times.getD ts 0 : ℚ) : ℝ)

/-- Source: error_models/detuning.py lines 50-55. -/
def detuning_default_parameters : List ℚ := [1/10]

/-- Source: error_models/detuning.py lines 24-47.  The parameters are
either absent (defaulting per lines 30-31), a subscriptable list whose
first element is taken (an empty list raising IndexError), or a bare
scalar (the TypeError fallback of lines 35-38).  Column 2 of the value
matrix of the input control is overwritten in place with delta, raising
IndexError when there are fewer than three components; the first
returned waveform is the post-call state of the input object and the
second is the freshly constructed control returned by the model. -/
def detuning_call (ctrl : Waveform) (ep : Option (List ℚ ⊕ ℚ)) :
    Except String (Waveform × Waveform) :=
  let ps := ep.getD (Sum.inl detuning_default_parameters)
  let deltaE : Except String ℚ :=
    match ps with
    | Sum.inl l =>
        match l.head? with
        | some d => .ok d
        | none => .error errIndex
    | Sum.inr q => .ok q
  match deltaE with
  | .error e => .error e
  | .ok delta =>
      if 3 ≤ ctrl.number_controls then
        let arr := ctrl.control.map (fun row => row.set 2 delta)
        match control_init arr ctrl.times none with
        | .ok p => .ok ({ ctrl with control := arr }, p.1)
        | .error e => .error e
      else .error errIndex

/-- Source: control.py line 512, numpy.hstack of the value matrix and
the time column: row i becomes the value row with the time appended. -/
def hstackTimes (w : Waveform) : List (List ℚ) :=
  List.zipWith (fun row t => row ++ [t]) w.control w.times

/-- Modelled from the spec: the fixed-precision scientific-notation text
encoding of one value, standing in for the numpy savetxt format string
of control.py line 538 followed by the loadtxt parse, code that lives in
numpy rather than in this repository.  A nonzero value is rounded to
twelve digits after the leading digit of its decimal scientific form. -/
def encE12 (x : ℚ) : ℚ :=
  if x = 0 then 0
  else
    ((round (x / (10 : ℚ) ^ (Int.log 10 |x| - 12)) : ℤ) : ℚ) *
      (10 : ℚ) ^ (Int.log 10 |x| - 12)

/-- Source: control.py lines 508-576.  The saved payload is the hstack
of values and times; the csv branch writes every entry in the twelve
digit scientific text form (the header and footer are comments that the
loader skips), the npy and npz branches store the matrix exactly, and
any other format name raises ValueError. -/
def save (w : Waveform) (format : String) : Except String (List (List ℚ)) :=
  let ARR := hstackTimes w
  if format = "csv" then .ok (ARR.map (fun row => row.map encE12))
  else if format = "npy" then .ok ARR
  else if format = "npz" then .ok ARR
  else .error errFormat

/-- Source: control.py lines 582-616.  Each recognized format branch
recovers the stored matrix (for npz under the conventional first-array
key) and rebuilds a control through the single-matrix constructor path;
an unrecognized format raises ValueError. -/
def load (content : List (List ℚ)) (format : String) : Except String Waveform :=
  if format = "csv" then control_init_matrix content
  else if format = "npy" then control_init_matrix content
  else if format = "npz" then control_init_matrix content
  else .error errFormat

/-- The construction invariant of the data model: at least one sample,
strictly increasing times, one value row per sample, and every row of
the declared width. -/
def invariant (w : Waveform) : Prop :=
  w.times ≠ [] ∧ w.times.Chain' (· < ·) ∧
  w.control.length = w.times.length ∧
  ∀ r ∈ w.control, r.length = w.number_controls

theorem timeOrdered_iff (l : List ℚ) : timeOrdered l = true ↔ l.Chain' (· < ·) := by
  induction l with
  | nil => simp [timeOrdered]
  | cons a t ih =>
    cases t with
    | nil => simp [timeOrdered]
    | cons b t' =>
      simp only [timeOrdered, List.tail_cons, List.zipWith_cons_cons, List.all_cons,
        Bool.and_eq_true, decide_eq_true_eq, List.chain'_cons, sub_pos] at *
      exact and_congr Iff.rfl ih

theorem sorted_min?_eq_head? (l : List ℚ) (hc : l.Chain' (· < ·)) :
    l.min? = l.head? := by
  cases l with
  | nil => rfl
  | cons a t =>
    simp only [List.min?_cons', List.head?_cons, Option.some.injEq]
    have hall : ∀ x ∈ t, a ≤ x := by
      have hp := List.chain'_iff_pairwise.mp hc
      intro x hx
      exact le_of_lt (List.rel_of_pairwise_cons hp hx)
    clear hc
    induction t generalizing a with
    | nil => rfl
    | cons b t ihh =>
      have hab : a ≤ b := hall b (by simp)
      rw [List.foldl_cons, min_eq_left hab]
      exact ihh a (fun x hx => hall x (by simp [hx]))

theorem sorted_max?_eq_getLast? (l : List ℚ) (hc : l.Chain' (· < ·)) :
    l.max? = l.getLast? := by
  induction l with
  | nil => rfl
  | cons a t ih =>
    cases t with
    | nil => rfl
    | cons b t' =>
      have hab : a < b := (List.chain'_cons.mp hc).1
      have hc' : (b :: t').Chain' (· < ·) := (List.chain'_cons.mp hc).2
      rw [List.getLast?_cons_cons, ← ih hc', List.max?_cons', List.max?_cons',
        List.foldl_cons, max_eq_right (le_of_lt hab)]

theorem getD_reverse_map {α β : Type} (f : α → β) (l : List α) (i : ℕ)
    (hi : i < l.length) (d : α) (d' : β) :
    (l.reverse.map f).getD i d' = f (l.getD (l.length - 1 - i) d) := by
  have h2 : l.length - 1 - i < l.length := by omega
  rw [List.getD_eq_getElem?_getD, List.getElem?_map,
    List.getElem?_reverse (by simpa using hi),
    List.getElem?_eq_getElem h2, List.getD_eq_getElem?_getD,
    List.getElem?_eq_getElem h2]
  rfl

theorem chain'_reverse_map_sub (c : ℚ) (l : List ℚ) (hc : l.Chain' (· < ·)) :
    (l.reverse.map (fun t => c - t)).Chain' (· < ·) := by
  rw [List.chain'_map, List.chain'_reverse]
  exact hc.imp (fun a b h => by simp only [flip]; linarith)

theorem hstack_times_proj (k : ℕ) (rows : List (List ℚ)) (ts : List ℚ)
    (hk : ∀ r ∈ rows, r.length = k) (hlen : rows.length = ts.length) :
    (List.zipWith (fun r t => r ++ [t]) rows ts).map (fun row => row.getD k 0) = ts := by
  induction rows generalizing ts with
  | nil =>
    cases ts with
    | nil => rfl
    | cons t ts' => simp at hlen
  | cons r rows ih =>
    cases ts with
    | nil => simp at hlen
    | cons t ts' =>
      simp only [List.zipWith_cons_cons, List.map_cons]
      have hr : r.length = k := hk r (by simp)
      refine List.cons_eq_cons.mpr ⟨?_, ?_⟩
      · rw [List.getD_eq_getElem?_getD, List.getElem?_append_right (by omega)]
        simp [hr]
      · exact ih ts' (fun x hx => hk x (by simp [hx])) (by simpa using hlen)

theorem hstack_ctrl_proj (k : ℕ) (rows : List (List ℚ)) (ts : List ℚ)
    (hk : ∀ r ∈ rows, r.length = k) (hlen : rows.length = ts.length) :
    (List.zipWith (fun r t => r ++ [t]) rows ts).map (fun row => row.take k) = rows := by
  induction rows generalizing ts with
  | nil =>
    cases ts with
    | nil => rfl
    | cons t ts' => simp at hlen
  | cons r rows ih =>
    cases ts with
    | nil => simp at hlen
    | cons t ts' =>
      simp only [List.zipWith_cons_cons, List.map_cons]
      have hr : r.length = k := hk r (by simp)
      refine List.cons_eq_cons.mpr ⟨?_, ?_⟩
      · rw [← hr, List.take_left]
      · exact ih ts' (fun x hx => hk x (by simp [hx])) (by simpa using hlen)

theorem control_init_matrix_hstack (w : Waveform) (hne : w.times ≠ [])
    (hc : w.times.Chain' (· < ·)) (hlen : w.control.length = w.times.length)
    (hk : ∀ r ∈ w.control, r.length = w.number_controls) :
    control_init_matrix (hstackTimes w) =
      .ok { control := w.control, times := w.times,
            number_controls := w.number_controls,
            interpolation := "latest", verbose := false } := by
  obtain ⟨t, ts, ht⟩ : ∃ t ts, w.times = t :: ts := by
    cases h : w.times with
    | nil => exact absurd h hne
    | cons t ts => exact ⟨t, ts, rfl⟩
  obtain ⟨r, rs, hr⟩ : ∃ r rs, w.control = r :: rs := by
    cases h : w.control with
    | nil => rw [h, ht] at hlen; simp at hlen
    | cons r rs => exact ⟨r, rs, rfl⟩
  have hrk : r.length = w.number_controls := hk r (by rw [hr]; simp)
  have hhead :
      ((List.zipWith (fun (row : List ℚ) t => row ++ [t]) w.control w.times).headD []).length - 1
        = w.number_controls := by
    rw [hr, ht]
    simp [hrk]
  rw [control_init_matrix]
  simp only [hstackTimes]
  rw [hhead, hstack_times_proj w.number_controls w.control w.times hk hlen,
    hstack_ctrl_proj w.number_controls w.control w.times hk hlen,
    if_pos ((timeOrdered_iff w.times).mpr hc)]

theorem int_log10_zero (x : ℚ) (h1 : 1 ≤ x) (h2 : x < 10) : Int.log 10 x = 0 := by
  have h0 : (0 : ℤ) ≤ Int.log 10 x := by
    rw [Int.log_of_one_le_right _ h1]
    positivity
  have hlt : Int.log 10 x < 1 := by
    rw [← Int.lt_zpow_iff_log_lt (by norm_num) (by linarith)]
    norm_num
    exact h2
  omega

theorem interpolate_ok_of_valid (w : Waveform) (time : ℚ) (pol : String)
    (hpol : pol ∈ valid_inputs) (hdom : ¬(time < timemin w ∨ timemax w < time)) :
    ∃ v, interpolate w time (some pol) = .ok v := by
  simp only [valid_inputs, List.mem_cons, List.not_mem_nil, or_false] at hpol
  simp only [interpolate, Option.getD_some]
  rw [if_neg hdom]
  rcases hpol with h | h | h
  · subst h
    rw [if_pos rfl]
    exact ⟨_, rfl⟩
  · subst h
    rw [if_neg (by decide), if_pos rfl]
    split
    · exact ⟨_, rfl⟩
    · exact ⟨_, rfl⟩
  · subst h
    rw [if_neg (by decide), if_neg (by decide), if_pos rfl]
    exact ⟨_, rfl⟩

theorem interpolate_err_dom (w : Waveform) (time : ℚ) (pol : Option String)
    (hdom : time < timemin w ∨ timemax w < time) :
    interpolate w time pol = .error errInterval := by
  simp only [interpolate]
  rw [if_pos hdom]

theorem interpolate_err_pol (w : Waveform) (time : ℚ) (pol : String)
    (hpol : pol ∉ valid_inputs) (hdom : ¬(time < timemin w ∨ timemax w < time)) :
    interpolate w time (some pol) = .error errMethod := by
  have h1 : pol ≠ "latest" := fun h => hpol (by simp [valid_inputs, h])
  have h2 : pol ≠ "nearest" := fun h => hpol (by simp [valid_inputs, h])
  have h3 : pol ≠ "linear" := fun h => hpol (by simp [valid_inputs, h])
  simp only [interpolate, Option.getD_some]
  rw [if_neg hdom, if_neg h1, if_neg h2, if_neg h3]

theorem encE12_abs_le (x : ℚ) : |encE12 x - x| ≤ |x| / (2 * 10 ^ 12) := by
  rcases eq_or_ne x 0 with h0 | h0
  · simp [encE12, h0]
  · rw [encE12, if_neg h0]
    set e : ℤ := Int.log 10 |x| with he
    set h : ℚ := (10 : ℚ) ^ (e - 12) with hh
    have hpos : 0 < h := zpow_pos (by norm_num) _
    have hne : h ≠ 0 := ne_of_gt hpos
    have key : ((round (x / h) : ℤ) : ℚ) * h - x = (((round (x / h) : ℤ) : ℚ) - x / h) * h := by
      field_simp
    rw [key, abs_mul, abs_of_pos hpos]
    have hround : |((round (x / h) : ℤ) : ℚ) - x / h| ≤ 1 / 2 := by
      rw [abs_sub_comm]
      exact abs_sub_round (x / h)
    have hbound : h ≤ |x| / 10 ^ 12 := by
      have hlog : (10 : ℚ) ^ e ≤ |x| :=
        Int.zpow_log_le_self (by norm_num) (abs_pos.mpr h0)
      have hsplit : h = (10 : ℚ) ^ e / 10 ^ 12 := by
        rw [hh, zpow_sub₀ (by norm_num : (10 : ℚ) ≠ 0)]
        norm_num
      rw [hsplit]
      gcongr
    calc |((round (x / h) : ℤ) : ℚ) - x / h| * h ≤ (1 / 2) * (|x| / 10 ^ 12) := by
          apply mul_le_mul hround hbound (le_of_lt hpos) (by norm_num)
      _ = |x| / (2 * 10 ^ 12) := by ring

/-- A two-sample two-component waveform, value vector (0,1) at time 0
and (1,0) at time 1, the concrete scenario of the specification. -/
def wTwo : Waveform :=
  { control := [[0,1],[1,0]], times := [0,1], number_controls := 2,
    interpolation := "latest", verbose := false }

unseal Rat.sub Rat.add Rat.mul Rat.inv in
/-- C1: the claim says a query landing exactly on a knot returns that
knot value under each policy.  Evaluating the embedded code on the
waveform with times 0,1,2 and rows 0,5,0 at the interior knot time 1
returns the row 0 value under all three policies, while the stored row
at index 1 is 5: the code looks up the largest time strictly below the
query, so knot queries return a neighbor instead of the knot. -/
theorem interpolate_knot_eval :
    interpolate wSpike 1 (some ("latest")) = .ok [0] ∧
    interpolate wSpike 1 (some ("nearest")) = .ok [0] ∧
    interpolate wSpike 1 (some ("linear")) = .ok [0] ∧
    wSpike.control.getD 1 [] = [5] := by decide

unseal Rat.sub Rat.add Rat.mul Rat.inv in
/-- C4 counterexample: the claim says nearest interpolation on the
two-sample waveform returns the second row at time 0.26; the code
returns the first row, since 0.26 is nearer to the knot at 0 than to
the knot at 1. -/
theorem nearest_quarter_ce :
    interpolate wTwo (26/100) (some ("nearest")) ≠ .ok [1, 0] := by decide

unseal Rat.sub Rat.add Rat.mul Rat.inv in
/-- C4 amended: on the two-sample waveform with rows (0,1) and (1,0),
nearest interpolation returns the first row both at time 0.24 and at
time 0.26, since both queries are nearer to the knot at time 0. -/
theorem nearest_quarter :
    interpolate wTwo (24/100) (some ("nearest")) = .ok [0, 1] ∧
    interpolate wTwo (26/100) (some ("nearest")) = .ok [0, 1] := by decide

/-- C6: interpolate returns a ValueError exactly when the query time
lies strictly outside the closed sampling interval or the supplied
policy name is not one of the three recognized names; the inclusive
endpoints and every recognized policy yield a value.  The embedding is
a pure function of the waveform, which the source only reads, so the
waveform is unchanged for subsequent calls. -/
theorem interpolate_error_iff (w : Waveform) (time : ℚ) (pol : String)
    (hne : w.times ≠ []) :
    (∃ e, interpolate w time (some pol) = .error e) ↔
      (time < timemin w ∨ timemax w < time ∨ pol ∉ valid_inputs) := by
  by_cases hdom : time < timemin w ∨ timemax w < time
  · rw [interpolate_err_dom w time (some pol) hdom]
    constructor
    · intro _
      rcases hdom with h | h
      · exact Or.inl h
      · exact Or.inr (Or.inl h)
    · intro _
      exact ⟨errInterval, rfl⟩
  · by_cases hpol : pol ∈ valid_inputs
    · obtain ⟨v, hv⟩ := interpolate_ok_of_valid w time pol hpol hdom
      rw [hv]
      constructor
      · rintro ⟨e, he⟩
        exact absurd he (by simp)
      · intro h
        rcases h with h | h | h
        · exact absurd (Or.inl h) hdom
        · exact absurd (Or.inr h) hdom
        · exact absurd hpol h
    · rw [interpolate_err_pol w time pol hpol hdom]
      constructor
      · intro _
        exact Or.inr (Or.inr hpol)
      · intro _
        exact ⟨errMethod, rfl⟩

unseal Rat.sub in
/-- C6 witness: evaluation at the two-sample waveform and the query
time 3, which lies beyond the last sample. -/
theorem interpolate_error_iff_w :
    wTwo.times ≠ [] ∧
    ((∃ e, interpolate wTwo 3 (some ("latest")) = .error e) ↔
      (3 < timemin wTwo ∨ timemax wTwo < 3 ∨ "latest" ∉ valid_inputs)) :=
  ⟨by decide, interpolate_error_iff wTwo 3 "latest" (by decide)⟩

/-- C7: an unrecognized policy name is fatal when supplied to
interpolate, for every waveform and query time, yet the same name
supplied as the construction-time interpolation option is not: the
constructor succeeds on well-formed data, stores latest as the policy,
and flags the non-fatal warning. -/
theorem policy_asymmetry (s : String) (hs : s ∉ valid_inputs)
    (arr : List (List ℚ)) (times : List ℚ)
    (hdim : arr.length = times.length) (hord : times.Chain' (· < ·)) :
    (∀ (w : Waveform) (t : ℚ), ∃ e, interpolate w t (some s) = .error e) ∧
    (∃ w : Waveform, control_init arr times (some s) = .ok (w, true) ∧
      w.interpolation = "latest") := by
  constructor
  · intro w t
    by_cases hdom : t < timemin w ∨ timemax w < t
    · exact ⟨errInterval, interpolate_err_dom w t (some s) hdom⟩
    · exact ⟨errMethod, interpolate_err_pol w t s hs hdom⟩
  · have hp : parse_interp (some s) = ("latest", true) := by
      simp [parse_interp, hs]
    refine ⟨{ control := arr, times := times,
              number_controls := (arr.headD []).length,
              interpolation := "latest", verbose := false }, ?_, rfl⟩
    simp [control_init, hdim, (timeOrdered_iff times).mpr hord, hp]

unseal Rat.sub Rat.add in
/-- C7 witness: the unrecognized name cubic, with a concrete value
matrix and time vector. -/
theorem policy_asymmetry_w :
    ("cubic" ∉ valid_inputs) ∧
    ([[1],[2]] : List (List ℚ)).length = ([0,1] : List ℚ).length ∧
    ((∀ (w : Waveform) (t : ℚ), ∃ e, interpolate w t (some ("cubic")) = .error e) ∧
     (∃ w : Waveform, control_init [[1],[2]] [0,1] (some ("cubic")) = .ok (w, true) ∧
       w.interpolation = "latest")) :=
  ⟨by decide, by decide,
    policy_asymmetry "cubic" (by decide) [[1],[2]] [0,1] (by decide)
      ((timeOrdered_iff [0,1]).mp (by decide))⟩

/-- C10: calling a waveform with an argument count other than one or
two performs no interpolation and yields the python null value None,
modelled by the outer none, rather than an error. -/
theorem call_wrong_arity (w : Waveform) (args : List ℚ)
    (h1 : args.length ≠ 1) (h2 : args.length ≠ 2) :
    wf_call w args = none := by
  cases args with
  | nil => rfl
  | cons a t =>
    cases t with
    | nil => simp at h1
    | cons b t' =>
      cases t' with
      | nil => simp at h2
      | cons c t'' => rfl

/-- C10 witness: a three-argument call on the two-sample waveform. -/
theorem call_wrong_arity_w :
    ([1, 2, 3] : List ℚ).length ≠ 1 ∧ ([1, 2, 3] : List ℚ).length ≠ 2 ∧
    wf_call wTwo [1, 2, 3] = none :=
  ⟨by decide, by decide, call_wrong_arity wTwo [1, 2, 3] (by decide) (by decide)⟩

/-- C5: inverse returns a waveform whose time at index n-1-i is timemax
minus the former time at index i, whose value row at index i is the
negation of the former row at index n-1-i, and whose time vector is
still strictly increasing. -/
theorem inverse_spec (w : Waveform) (i : ℕ) (hi : i < w.times.length)
    (hc : w.times.Chain' (· < ·)) (hL : w.control.length = w.times.length) :
    (inverse w).times.getD (w.times.length - 1 - i) 0 =
        timemax w - w.times.getD i 0 ∧
    (inverse w).control.getD i [] =
        (w.control.getD (w.times.length - 1 - i) []).map (fun x => -x) ∧
    (inverse w).times.Chain' (· < ·) := by
  refine ⟨?_, ?_, ?_⟩
  · show ((w.times.reverse).map (fun t => timemax w - t)).getD
        (w.times.length - 1 - i) 0 = _
    rw [getD_reverse_map (fun t => timemax w - t) w.times
      (w.times.length - 1 - i) (by omega) 0 0]
    have hidx : w.times.length - 1 - (w.times.length - 1 - i) = i := by omega
    rw [hidx]
  · show ((w.control.reverse).map (List.map (fun x => -x))).getD i [] = _
    rw [getD_reverse_map (List.map (fun x => -x)) w.control i (by omega) [] [],
      hL]
  · exact chain'_reverse_map_sub (timemax w) w.times hc

unseal Rat.sub Rat.add in
/-- C5 witness: evaluation at the three-sample spike waveform and the
former index 0. -/
theorem inverse_spec_w :
    0 < wSpike.times.length ∧
    ((inverse wSpike).times.getD (wSpike.times.length - 1 - 0) 0 =
        timemax wSpike - wSpike.times.getD 0 0 ∧
      (inverse wSpike).control.getD 0 [] =
        (wSpike.control.getD (wSpike.times.length - 1 - 0) []).map (fun x => -x) ∧
      (inverse wSpike).times.Chain' (· < ·)) :=
  ⟨by decide,
    inverse_spec wSpike 0 (by decide)
      ((timeOrdered_iff wSpike.times).mp (by decide)) (by decide)⟩

/-- C2 amended: applying inverse twice restores every component value
exactly, but the time vector comes back shifted to start at zero, entry
i becoming the former time i minus the original first time; the
original pairs are reproduced exactly only when the waveform starts at
time zero. -/
theorem inverse_inverse (w : Waveform) (hne : w.times ≠ [])
    (hc : w.times.Chain' (· < ·)) :
    (inverse (inverse w)).control = w.control ∧
    (inverse (inverse w)).times = w.times.map (fun t => t - timemin w) := by
  obtain ⟨h0, ts, hts⟩ : ∃ h0 ts, w.times = h0 :: ts := by
    cases h : w.times with
    | nil => exact absurd h hne
    | cons x xs => exact ⟨x, xs, rfl⟩
  constructor
  · show (((w.control.reverse).map (List.map (fun x => -x))).reverse).map
        (List.map (fun x => -x)) = w.control
    simp [List.map_reverse, List.reverse_reverse, List.map_map,
      Function.comp, neg_neg]
  · have hT1 : timemax (inverse w) = timemax w - h0 := by
      have hs : (inverse w).times.Chain' (· < ·) :=
        chain'_reverse_map_sub (timemax w) w.times hc
      rw [timemax, sorted_max?_eq_getLast? _ hs]
      show (((w.times.reverse).map (fun t => timemax w - t)).getLast?).getD 0 = _
      rw [List.map_reverse, ← List.map_reverse, List.getLast?_map,
        List.getLast?_reverse, hts]
      rfl
    have hmin : timemin w = h0 := by
      rw [timemin, sorted_min?_eq_head? _ hc, hts]
      rfl
    show (((w.times.reverse).map (fun t => timemax w - t)).reverse).map
        (fun t => timemax (inverse w) - t) = _
    simp only [List.map_reverse, List.reverse_reverse, List.map_map]
    rw [hT1, hmin]
    apply List.map_congr_left
    intro t _
    simp only [Function.comp]
    ring

/-- A waveform whose first sample time is nonzero. -/
def wLate : Waveform :=
  { control := [[0],[0]], times := [1,2], number_controls := 1,
    interpolation := "latest", verbose := false }

unseal Rat.sub Rat.add in
/-- C2 counterexample: on the waveform sampled at times 1 and 2,
applying inverse twice yields sample times 0 and 1, not the original
times: the documented re-anchoring composes to a shift by the first
sample time, not to a no-op. -/
theorem inverse_inverse_ce :
    (inverse (inverse wLate)).times ≠ wLate.times := by decide

unseal Rat.sub Rat.add in
/-- C2 concrete witness: the amended statement applied to the same
waveform that refutes the literal claim. -/
theorem inverse_inverse_w :
    wLate.times ≠ [] ∧
    ((inverse (inverse wLate)).control = wLate.control ∧
     (inverse (inverse wLate)).times =
       wLate.times.map (fun t => t - timemin wLate)) :=
  ⟨by decide,
    inverse_inverse wLate (by decide) ((timeOrdered_iff wLate.times).mp (by decide))⟩

theorem vnorm_neg (v : List ℚ) : vnorm (v.map (fun x => -x)) = vnorm v := by
  rw [vnorm, vnorm, List.map_map]
  congr 1
  congr 1
  apply List.map_congr_left
  intro x _
  show ((-x : ℚ) : ℝ) ^ 2 = ((x : ℚ) : ℝ) ^ 2
  push_cast
  ring

/-- C3 amended: the arc length of the inverse equals the sum over
consecutive sample pairs weighted by the norm of the later row of each
pair, rather than the earlier row used by arc_length itself; the two
agree only when consecutive rows have equal norms. -/
theorem arc_length_inverse (w : Waveform)
    (hL : w.control.length = w.times.length) :
    arc_length (inverse w) =
      ∑ i ∈ Finset.range (w.times.length - 1),
        vnorm (w.control.getD (i + 1) []) *
          ((w.times.getD (i + 1) 0 - w.times.getD i 0 : ℚ) : ℝ) := by
  have hlen : (inverse w).times.length = w.times.length := by
    show ((w.times.reverse).map (fun t => timemax w - t)).length = _
    simp
  rw [arc_length, hlen]
  conv_rhs => rw [← Finset.sum_range_reflect]
  apply Finset.sum_congr rfl
  intro ts hts
  rw [Finset.mem_range] at hts
  have h1 : (inverse w).control.getD ts [] =
      (w.control.getD (w.times.length - 1 - ts) []).map (fun x => -x) := by
    show ((w.control.reverse).map (List.map (fun x => -x))).getD ts [] = _
    rw [getD_reverse_map (List.map (fun x => -x)) w.control ts (by omega) [] [],
      hL]
  have h2 : (inverse w).times.getD (ts + 1) 0 =
      timemax w - w.times.getD (w.times.length - 1 - (ts + 1)) 0 := by
    show ((w.times.reverse).map (fun t => timemax w - t)).getD (ts + 1) 0 = _
    exact getD_reverse_map _ w.times (ts + 1) (by omega) 0 0
  have h3 : (inverse w).times.getD ts 0 =
      timemax w - w.times.getD (w.times.length - 1 - ts) 0 := by
    show ((w.times.reverse).map (fun t => timemax w - t)).getD ts 0 = _
    exact getD_reverse_map _ w.times ts (by omega) 0 0
  rw [h1, h2, h3, vnorm_neg]
  have e1 : w.times.length - 1 - 1 - ts + 1 = w.times.length - 1 - ts := by omega
  have e2 : w.times.length - 1 - (ts + 1) = w.times.length - 1 - 1 - ts := by omega
  rw [e2, e1]
  congr 1
  push_cast
  ring

/-- A two-sample waveform whose two rows have different norms. -/
def wRamp : Waveform :=
  { control := [[1],[2]], times := [0,1], number_controls := 1,
    interpolation := "latest", verbose := false }

theorem vnorm_single (x : ℚ) : vnorm [x] = |(x : ℝ)| := by
  rw [vnorm]
  simp [Real.sqrt_sq_eq_abs]

unseal Rat.sub Rat.add Rat.mul in
/-- C3 counterexample: on the ramp waveform the arc length is the norm
of the first row, 1, while the arc length of its inverse is the norm of
the negated second row, 2, so time reversal does not preserve the
magnitude-weighted path length. -/
theorem arc_length_inverse_ce :
    arc_length (inverse wRamp) ≠ arc_length wRamp := by
  have hinv : inverse wRamp =
      { control := [[-2],[-1]], times := [0,1], number_controls := 1,
        interpolation := "latest", verbose := false } := by decide
  have h1 : arc_length wRamp = 1 := by
    rw [arc_length]
    norm_num [wRamp, Finset.sum_range_one, vnorm_single]
  have h2 : arc_length (inverse wRamp) = 2 := by
    rw [hinv, arc_length]
    norm_num [Finset.sum_range_one, vnorm_single]
  rw [h1, h2]
  norm_num

/-- C3 concrete witness: the amended identity applied to the ramp
waveform that refutes the literal claim. -/
theorem arc_length_inverse_w :
    wRamp.control.length = wRamp.times.length ∧
    arc_length (inverse wRamp) =
      ∑ i ∈ Finset.range (wRamp.times.length - 1),
        vnorm (wRamp.control.getD (i + 1) []) *
          ((wRamp.times.getD (i + 1) 0 - wRamp.times.getD i 0 : ℚ) : ℝ) :=
  ⟨rfl, arc_length_inverse wRamp rfl⟩

/-- C9: applied to a waveform with at least three components, the
detuning model overwrites column 2 of the input waveform's own rows
with the constant delta while leaving its sample times untouched, so
the ordering invariant survives, and returns a freshly built waveform
carrying the overwritten rows; with fewer than three components the
call fails. -/
theorem detuning_spec (ctrl : Waveform) (delta : ℚ) (hwf : invariant ctrl) :
    (3 ≤ ctrl.number_controls →
      ∃ ret, detuning_call ctrl (some (Sum.inl [delta])) =
          .ok ({ ctrl with
                 control := ctrl.control.map (fun r => r.set 2 delta) }, ret) ∧
        ({ ctrl with control := ctrl.control.map (fun r => r.set 2 delta) } :
            Waveform).times = ctrl.times ∧
        (∀ r ∈ ctrl.control.map (fun r => r.set 2 delta), r.getD 2 0 = delta) ∧
        ctrl.times.Chain' (· < ·) ∧
        ret.control = ctrl.control.map (fun r => r.set 2 delta) ∧
        ret.times = ctrl.times) ∧
    (ctrl.number_controls < 3 →
      ∃ e, detuning_call ctrl (some (Sum.inl [delta])) = .error e) := by
  obtain ⟨hne, hc, hlen, hk⟩ := hwf
  constructor
  · intro h3
    have hinit : control_init (ctrl.control.map (fun r => r.set 2 delta))
        ctrl.times none =
        .ok ({ control := ctrl.control.map (fun r => r.set 2 delta),
               times := ctrl.times,
               number_controls :=
                 ((ctrl.control.map (fun r => r.set 2 delta)).headD []).length,
               interpolation := "latest", verbose := false }, false) := by
      rw [control_init, if_pos (by simpa using hlen),
        if_pos ((timeOrdered_iff _).mpr hc)]
      rfl
    have hcall : detuning_call ctrl (some (Sum.inl [delta])) =
        .ok ({ ctrl with control := ctrl.control.map (fun r => r.set 2 delta) },
          { control := ctrl.control.map (fun r => r.set 2 delta),
            times := ctrl.times,
            number_controls :=
              ((ctrl.control.map (fun r => r.set 2 delta)).headD []).length,
            interpolation := "latest", verbose := false }) := by
      rw [detuning_call]
      simp only [Option.getD_some, List.head?_cons]
      rw [if_pos h3, hinit]
    refine ⟨_, hcall, rfl, ?_, hc, rfl, rfl⟩
    intro r hr
    obtain ⟨r0, hr0, rfl⟩ := List.mem_map.mp hr
    have hlen0 : 2 < r0.length := by
      have := hk r0 hr0
      omega
    rw [List.getD_eq_getElem?_getD, List.getElem?_set_self (by simpa using hlen0)]
    rfl
  · intro hlt
    refine ⟨errIndex, ?_⟩
    rw [detuning_call]
    simp only [Option.getD_some, List.head?_cons]
    rw [if_neg (by omega)]

/-- A two-sample waveform with three components per sample. -/
def wXYZ : Waveform :=
  { control := [[1,2,3],[4,5,6]], times := [0,1], number_controls := 3,
    interpolation := "latest", verbose := false }

unseal Rat.sub Rat.add in
/-- C9 witness: the detuning model applied to the three-component
waveform with delta 9. -/
theorem detuning_spec_w :
    invariant wXYZ ∧
    ((3 ≤ wXYZ.number_controls →
      ∃ ret, detuning_call wXYZ (some (Sum.inl [9])) =
          .ok ({ wXYZ with
                 control := wXYZ.control.map (fun r => r.set 2 9) }, ret) ∧
        ({ wXYZ with control := wXYZ.control.map (fun r => r.set 2 9) } :
            Waveform).times = wXYZ.times ∧
        (∀ r ∈ wXYZ.control.map (fun r => r.set 2 9), r.getD 2 0 = 9) ∧
        wXYZ.times.Chain' (· < ·) ∧
        ret.control = wXYZ.control.map (fun r => r.set 2 9) ∧
        ret.times = wXYZ.times) ∧
     (wXYZ.number_controls < 3 →
      ∃ e, detuning_call wXYZ (some (Sum.inl [9])) = .error e)) :=
  ⟨⟨by decide, (timeOrdered_iff wXYZ.times).mp (by decide), by decide, by decide⟩,
    detuning_spec wXYZ 9
      ⟨by decide, (timeOrdered_iff wXYZ.times).mp (by decide), by decide, by decide⟩⟩

theorem encE12_zero : encE12 0 = 0 := by
  rw [encE12, if_pos rfl]

unseal Rat.sub Rat.add Rat.mul Rat.inv in
theorem encE12_one : encE12 1 = 1 := by
  rw [encE12, if_neg (by norm_num), show |(1 : ℚ)| = 1 by norm_num,
    Int.log_one_right]
  decide

unseal Rat.sub Rat.add Rat.mul Rat.inv in
theorem encE12_two : encE12 2 = 2 := by
  rw [encE12, if_neg (by norm_num), show |(2 : ℚ)| = 2 by norm_num,
    int_log10_zero 2 (by norm_num) (by norm_num)]
  decide

unseal Rat.sub Rat.add Rat.mul Rat.inv in
theorem encE12_onePlus : encE12 (1 + 1 / 10 ^ 14) = 1 := by
  rw [encE12, if_neg (by norm_num),
    show |(1 + 1 / 10 ^ 14 : ℚ)| = 1 + 1 / 10 ^ 14 by norm_num,
    int_log10_zero (1 + 1 / 10 ^ 14) (by norm_num) (by norm_num)]
  decide

theorem hstack_map_encE12 : ∀ (rows : List (List ℚ)) (ts : List ℚ),
    (List.zipWith (fun r t => r ++ [t]) rows ts).map (fun r => r.map encE12) =
      List.zipWith (fun r t => r ++ [t]) (rows.map (List.map encE12))
        (ts.map encE12)
  | [], ts => by simp
  | r :: rows, [] => by simp
  | r :: rows, t :: ts => by
    simp only [List.zipWith_cons_cons, List.map_cons, List.map_append,
      List.map_nil]
    rw [hstack_map_encE12 rows ts]

/-- A waveform with two sample times closer together than the csv text
precision resolves. -/
def wFine : Waveform :=
  { control := [[0],[0]], times := [1, 1 + 1 / 10 ^ 14], number_controls := 1,
    interpolation := "latest", verbose := false }

unseal Rat.sub Rat.add Rat.mul Rat.inv in
/-- C8 counterexample: the waveform with sample times 1 and 1 plus ten
to the minus fourteen is valid, and the two binary formats reload it,
but the csv encoding collapses the two times to the same text value, so
the reload fails the time-ordering check instead of reconstructing the
waveform within tolerance. -/
theorem save_load_csv_ce :
    save wFine "csv" = .ok [[0, 1], [0, 1]] ∧
    load [[0, 1], [0, 1]] "csv" = .error errTimeOrder := by
  constructor
  · rw [save, if_pos rfl]
    have h1 : hstackTimes wFine = [[0, 1], [0, 1 + 1 / 10 ^ 14]] := by decide
    rw [h1]
    simp only [List.map_cons, List.map_nil, encE12_zero, encE12_one,
      encE12_onePlus]
  · decide

/-- C8 amended: the two binary formats reload a well-formed waveform to
exactly the original values and samples, and an unrecognized format
name fails on both save and load; the csv text format reloads, provided
the twelve-digit encoded times remain strictly increasing, to the
entrywise encoded values and samples, each within one part in two times
ten to the twelfth of the original magnitude.  Without that proviso the
claim fails, since the encoding can collapse distinct sample times and
make the reload fail. -/
theorem save_load_roundtrip (w : Waveform) (hwf : invariant w)
    (henc : timeOrdered (w.times.map encE12) = true) :
    (∀ fmt ∈ (["npy", "npz"] : List String),
      ∃ w', save w fmt = .ok (hstackTimes w) ∧
        load (hstackTimes w) fmt = .ok w' ∧
        w'.control = w.control ∧ w'.times = w.times) ∧
    (∃ w', save w "csv" = .ok ((hstackTimes w).map (fun r => r.map encE12)) ∧
      load ((hstackTimes w).map (fun r => r.map encE12)) "csv" = .ok w' ∧
      w'.control = w.control.map (List.map encE12) ∧
      w'.times = w.times.map encE12 ∧
      (∀ x : ℚ, |encE12 x - x| ≤ |x| / (2 * 10 ^ 12))) ∧
    (∀ fmt : String, fmt ∉ (["csv", "npy", "npz"] : List String) →
      save w fmt = .error errFormat ∧
      load (hstackTimes w) fmt = .error errFormat) := by
  obtain ⟨hne, hc, hlen, hk⟩ := hwf
  have hbin := control_init_matrix_hstack w hne hc hlen hk
  refine ⟨?_, ?_, ?_⟩
  · intro fmt hfmt
    simp only [List.mem_cons, List.not_mem_nil, or_false] at hfmt
    refine ⟨{ control := w.control, times := w.times,
              number_controls := w.number_controls,
              interpolation := "latest", verbose := false }, ?_, ?_, rfl, rfl⟩
    · rcases hfmt with h | h
      · subst h
        rw [save, if_neg (by decide), if_pos rfl]
      · subst h
        rw [save, if_neg (by decide), if_neg (by decide), if_pos rfl]
    · rcases hfmt with h | h
      · subst h
        rw [load, if_neg (by decide), if_pos rfl, hbin]
      · subst h
        rw [load, if_neg (by decide), if_neg (by decide), if_pos rfl, hbin]
  · have hE : invariant { control := w.control.map (List.map encE12),
                          times := w.times.map encE12,
                          number_controls := w.number_controls,
                          interpolation := "latest", verbose := false } := by
      refine ⟨?_, (timeOrdered_iff _).mp henc, by simpa using hlen, ?_⟩
      · intro h
        exact hne (List.map_eq_nil_iff.mp h)
      · intro r hr
        obtain ⟨r0, hr0, rfl⟩ := List.mem_map.mp hr
        simpa using hk r0 hr0
    obtain ⟨hEne, hEc, hElen, hEk⟩ := hE
    have hcsv := control_init_matrix_hstack _ hEne hEc hElen hEk
    refine ⟨{ control := w.control.map (List.map encE12),
              times := w.times.map encE12,
              number_controls := w.number_controls,
              interpolation := "latest", verbose := false }, ?_, ?_, rfl, rfl,
              encE12_abs_le⟩
    · rw [save, if_pos rfl]
    · rw [load, if_pos rfl, hstackTimes] at *
      rw [hstack_map_encE12 w.control w.times]
      exact hcsv
  · intro fmt hfmt
    simp only [List.mem_cons, List.not_mem_nil, or_false, not_or] at hfmt
    obtain ⟨h1, h2, h3⟩ := hfmt
    constructor
    · rw [save, if_neg h1, if_neg h2, if_neg h3]
    · rw [load, if_neg h1, if_neg h2, if_neg h3]

unseal Rat.sub Rat.add Rat.mul Rat.inv in
/-- C8 witness: the round trip applied to the ramp waveform, whose
entries 0, 1, 2 are all fixed points of the text encoding. -/
theorem save_load_roundtrip_w :
    invariant wRamp ∧ timeOrdered (wRamp.times.map encE12) = true ∧
    ((∀ fmt ∈ (["npy", "npz"] : List String),
      ∃ w', save wRamp fmt = .ok (hstackTimes wRamp) ∧
        load (hstackTimes wRamp) fmt = .ok w' ∧
        w'.control = wRamp.control ∧ w'.times = wRamp.times) ∧
    (∃ w', save wRamp "csv" =
        .ok ((hstackTimes wRamp).map (fun r => r.map encE12)) ∧
      load ((hstackTimes wRamp).map (fun r => r.map encE12)) "csv" = .ok w' ∧
      w'.control = wRamp.control.map (List.map encE12) ∧
      w'.times = wRamp.times.map encE12 ∧
      (∀ x : ℚ, |encE12 x - x| ≤ |x| / (2 * 10 ^ 12))) ∧
    (∀ fmt : String, fmt ∉ (["csv", "npy", "npz"] : List String) →
      save wRamp fmt = .error errFormat ∧
      load (hstackTimes wRamp) fmt = .error errFormat)) :=
  ⟨⟨by decide, (timeOrdered_iff wRamp.times).mp (by decide), by decide, by decide⟩,
    by rw [show wRamp.times.map encE12 = [0, 1] from by
        simp [wRamp, encE12_zero, encE12_one]]
       decide,
    save_load_roundtrip wRamp
      ⟨by decide, (timeOrdered_iff wRamp.times).mp (by decide), by decide, by decide⟩
      (by rw [show wRamp.times.map encE12 = [0, 1] from by
            simp [wRamp, encE12_zero, encE12_one]]
          decide)⟩

end Qudy
